import Mathlib

/-!
Shallow embedding of the merge-iteration engine of the rs_ord_set_ops_iter
repository, together with proofs about it.

A cursor over an ordered sequence is modelled by the list of its remaining
elements: peep is the head of the list, next removes the head, and the
default advance_until of PeepAdvanceIter (a loop consuming elements below
the target) is dropWhile.  The lazy merge iterators hold two child cursors;
here they are functions on a pair of lists.  Each definition is annotated
with the Rust item it embeds.

Namespaces:
* PeepAdvance - the cursor capability defaults of ord_set_iter_set_ops.
* SetOps - the merge iterators (intersection, difference, union and
  symmetric difference) and the SetRelationships predicates of the crate
  ord_set_iter_set_ops (the union macro is textually the same in the
  peepable crate).
* Osoi - the older crate ord_set_ops_iter: the enum OrdSetOpsIter's
  Intersection arm of next/peek and the OrdSetOpsIterator relationship
  predicates.
* OrdListSetModel - the OrdListSet container of the ord_list_set crate and
  its binary-search cursor OrdListSetIter.
-/

namespace PeepAdvance

variable {α : Type} [LinearOrder α]

/-- Embedding of the default method PeepAdvanceIter::advance_until
(src/ord_set_iter_set_ops/src/lib.rs lines 37-45) acting on the list of
remaining elements of a cursor: while the peeped item is below the target
the item is consumed. -/
def advance_until (t : α) (l : List α) : List α :=
  l.dropWhile (fun x => decide (x < t))

end PeepAdvance

namespace SetOps

open PeepAdvance

variable {α : Type} [LinearOrder α]

/-- Output sequence obtained by draining the IntersectionIterator of
ord_set_iter_set_ops: the loop of the intersection_next macro
(src/ord_set_iter_set_ops/src/intersection_iterator.rs lines 9-34), with
the emission of the Equal case inlined into the drained list.  On Less the
left cursor is advanced to the right item without emitting, on Greater the
right cursor is advanced to the left item, on Equal both cursors are
consumed and the item is emitted once; an exhausted side stops the
iteration. -/
def intersection_list : List α → List α → List α
  | [], _ => []
  | _ :: _, [] => []
  | a :: l, b :: r =>
    if _h : a < b then
      intersection_list (advance_until b (a :: l)) (b :: r)
    else if _h2 : b < a then
      intersection_list (a :: l) (advance_until a (b :: r))
    else
      a :: intersection_list l r
  termination_by l r => l.length + r.length
  decreasing_by
  · have e : advance_until b (a :: l) = advance_until b l := by
      simp [advance_until, List.dropWhile_cons, _h]
    have h1 : (advance_until b l).length ≤ l.length :=
      (List.dropWhile_sublist _).length_le
    simp only [e, List.length_cons]
    omega
  · have e : advance_until a (b :: r) = advance_until a r := by
      simp [advance_until, List.dropWhile_cons, _h2]
    have h1 : (advance_until a r).length ≤ r.length :=
      (List.dropWhile_sublist _).length_le
    simp only [e, List.length_cons]
    omega
  · simp only [List.length_cons]
    omega

/-- Output sequence obtained by draining the DifferenceIterator of
ord_set_iter_set_ops: the loop of the difference_next macro
(src/ord_set_iter_set_ops/src/difference_iterator.rs lines 9-34) with the
emissions inlined.  On Less the left item is emitted and consumed, on
Greater the right cursor is advanced to the left item, on Equal both sides
are consumed without emitting; when the right side is exhausted the rest of
the left side is drained verbatim. -/
def difference_list : List α → List α → List α
  | [], _ => []
  | a :: l, [] => a :: difference_list l []
  | a :: l, b :: r =>
    if _h : a < b then
      a :: difference_list l (b :: r)
    else if _h2 : b < a then
      difference_list (a :: l) (advance_until a (b :: r))
    else
      difference_list l r
  termination_by l r => l.length + r.length
  decreasing_by
  · simp only [List.length_cons]
    omega
  · simp only [List.length_cons]
    omega
  · have e : advance_until a (b :: r) = advance_until a r := by
      simp [advance_until, List.dropWhile_cons, _h2]
    have h1 : (advance_until a r).length ≤ r.length :=
      (List.dropWhile_sublist _).length_le
    simp only [e, List.length_cons]
    omega
  · simp only [List.length_cons]
    omega

/-- Output sequence obtained by draining the UnionIterator: the union_next
macro (src/peepable/src/union_iterator.rs lines 8-27, textually the same
macro in ord_set_iter_set_ops) iterated to exhaustion.  On Less the left
item is emitted, on Greater the right item, on Equal both are consumed and
the item is emitted once; an exhausted side drains the other verbatim. -/
def union_list : List α → List α → List α
  | [], [] => []
  | [], b :: r => b :: union_list [] r
  | a :: l, [] => a :: union_list l []
  | a :: l, b :: r =>
    if _h : a < b then
      a :: union_list l (b :: r)
    else if _h2 : b < a then
      b :: union_list (a :: l) r
    else
      a :: union_list l r
  termination_by l r => l.length + r.length
  decreasing_by
  · simp only [List.length_cons]
    omega
  · simp only [List.length_cons]
    omega
  · simp only [List.length_cons]
    omega
  · simp only [List.length_cons]
    omega
  · simp only [List.length_cons]
    omega

/-- Output sequence obtained by draining the SymmetricDifferenceIterator:
the symmetric_difference_next macro
(src/ord_set_iter_set_ops/src/symmetric_difference_iterator.rs lines 9-34)
iterated to exhaustion.  Like union, except that on Equal both sides are
consumed and nothing is emitted. -/
def symmetric_difference_list : List α → List α → List α
  | [], [] => []
  | [], b :: r => b :: symmetric_difference_list [] r
  | a :: l, [] => a :: symmetric_difference_list l []
  | a :: l, b :: r =>
    if _h : a < b then
      a :: symmetric_difference_list l (b :: r)
    else if _h2 : b < a then
      b :: symmetric_difference_list (a :: l) r
    else
      symmetric_difference_list l r
  termination_by l r => l.length + r.length
  decreasing_by
  · simp only [List.length_cons]
    omega
  · simp only [List.length_cons]
    omega
  · simp only [List.length_cons]
    omega
  · simp only [List.length_cons]
    omega
  · simp only [List.length_cons]
    omega

/-- The intersection_peep macro
(src/ord_set_iter_set_ops/src/intersection_iterator.rs lines 37-59): the
same loop as intersection_next, except that on Equal the item is returned
without consuming either side.  The result is the peeped value together
with the two child cursors as mutated by the loop. -/
def intersection_peep : List α → List α → Option α × List α × List α
  | [], r => (none, [], r)
  | a :: l, [] => (none, a :: l, [])
  | a :: l, b :: r =>
    if _h : a < b then
      intersection_peep (advance_until b (a :: l)) (b :: r)
    else if _h2 : b < a then
      intersection_peep (a :: l) (advance_until a (b :: r))
    else
      (some a, a :: l, b :: r)
  termination_by l r => l.length + r.length
  decreasing_by
  · have e : advance_until b (a :: l) = advance_until b l := by
      simp [advance_until, List.dropWhile_cons, _h]
    have h1 : (advance_until b l).length ≤ l.length :=
      (List.dropWhile_sublist _).length_le
    simp only [e, List.length_cons]
    omega
  · have e : advance_until a (b :: r) = advance_until a r := by
      simp [advance_until, List.dropWhile_cons, _h2]
    have h1 : (advance_until a r).length ≤ r.length :=
      (List.dropWhile_sublist _).length_le
    simp only [e, List.length_cons]
    omega

/-- The difference_peep macro
(src/ord_set_iter_set_ops/src/difference_iterator.rs lines 37-62): the same
loop as difference_next, except that on Less (or when the right side is
exhausted) the left item is returned without consuming it. -/
def difference_peep : List α → List α → Option α × List α × List α
  | [], r => (none, [], r)
  | a :: l, [] => (some a, a :: l, [])
  | a :: l, b :: r =>
    if _h : a < b then
      (some a, a :: l, b :: r)
    else if _h2 : b < a then
      difference_peep (a :: l) (advance_until a (b :: r))
    else
      difference_peep l r
  termination_by l r => l.length + r.length
  decreasing_by
  · have e : advance_until a (b :: r) = advance_until a r := by
      simp [advance_until, List.dropWhile_cons, _h2]
    have h1 : (advance_until a r).length ≤ r.length :=
      (List.dropWhile_sublist _).length_le
    simp only [e, List.length_cons]
    omega
  · simp only [List.length_cons]
    omega

/-- The union_peep macro (src/peepable/src/union_iterator.rs lines 30-45):
returns the smaller of the two peeped items (the left one on Equal) and
never mutates the children. -/
def union_peep : List α → List α → Option α × List α × List α
  | [], r => (r.head?, [], r)
  | a :: l, [] => (some a, a :: l, [])
  | a :: l, b :: r =>
    if b < a then (some b, a :: l, b :: r) else (some a, a :: l, b :: r)

/-- The symmetric_difference_peep macro
(src/ord_set_iter_set_ops/src/symmetric_difference_iterator.rs lines
37-62): like union_peep, except that on Equal both children are consumed
and the loop continues. -/
def symmetric_difference_peep : List α → List α → Option α × List α × List α
  | [], r => (r.head?, [], r)
  | a :: l, [] => (some a, a :: l, [])
  | a :: l, b :: r =>
    if _h : a < b then
      (some a, a :: l, b :: r)
    else if _h2 : b < a then
      (some b, a :: l, b :: r)
    else
      symmetric_difference_peep l r
  termination_by l r => l.length + r.length
  decreasing_by
  · simp only [List.length_cons]
    omega

/-- SetRelationships::is_disjoint (src/ord_set_iter_set_ops/src/lib.rs
lines 177-201): lock-step scan that advances the smaller side with
advance_until and answers false exactly on an Equal comparison; an
exhausted side answers true. -/
def is_disjoint : List α → List α → Bool
  | [], _ => true
  | _ :: _, [] => true
  | a :: l, b :: r =>
    if _h : a < b then
      is_disjoint (advance_until b (a :: l)) (b :: r)
    else if _h2 : b < a then
      is_disjoint (a :: l) (advance_until a (b :: r))
    else
      false
  termination_by l r => l.length + r.length
  decreasing_by
  · have e : advance_until b (a :: l) = advance_until b l := by
      simp [advance_until, List.dropWhile_cons, _h]
    have h1 : (advance_until b l).length ≤ l.length :=
      (List.dropWhile_sublist _).length_le
    simp only [e, List.length_cons]
    omega
  · have e : advance_until a (b :: r) = advance_until a r := by
      simp [advance_until, List.dropWhile_cons, _h2]
    have h1 : (advance_until a r).length ≤ r.length :=
      (List.dropWhile_sublist _).length_le
    simp only [e, List.length_cons]
    omega

/-- SetRelationships::is_subset (src/ord_set_iter_set_ops/src/lib.rs lines
229-251): Less answers false, Greater advances the other side, Equal
consumes both; exhausting self answers true, exhausting other first
answers false. -/
def is_subset : List α → List α → Bool
  | [], _ => true
  | _ :: _, [] => false
  | a :: l, b :: r =>
    if _h : a < b then
      false
    else if _h2 : b < a then
      is_subset (a :: l) (advance_until a (b :: r))
    else
      is_subset l r
  termination_by l r => l.length + r.length
  decreasing_by
  · have e : advance_until a (b :: r) = advance_until a r := by
      simp [advance_until, List.dropWhile_cons, _h2]
    have h1 : (advance_until a r).length ≤ r.length :=
      (List.dropWhile_sublist _).length_le
    simp only [e, List.length_cons]
    omega
  · simp only [List.length_cons]
    omega

/-- SetRelationships::is_superset (src/ord_set_iter_set_ops/src/lib.rs
lines 279-301): Less advances self, Greater answers false, Equal consumes
both; exhausting other first answers true, and when self is exhausted the
answer is whether other is also exhausted. -/
def is_superset : List α → List α → Bool
  | [], r => r.isEmpty
  | _ :: _, [] => true
  | a :: l, b :: r =>
    if _h : a < b then
      is_superset (advance_until b (a :: l)) (b :: r)
    else if _h2 : b < a then
      false
    else
      is_superset l r
  termination_by l r => l.length + r.length
  decreasing_by
  · have e : advance_until b (a :: l) = advance_until b l := by
      simp [advance_until, List.dropWhile_cons, _h]
    have h1 : (advance_until b l).length ≤ l.length :=
      (List.dropWhile_sublist _).length_le
    simp only [e, List.length_cons]
    omega
  · simp only [List.length_cons]
    omega

/-- The loop of SetRelationships::is_proper_subset
(src/ord_set_iter_set_ops/src/lib.rs lines 203-227) with its mutable
result flag as an accumulator: a Greater comparison sets the flag, and
when self is exhausted the answer is the flag OR other still having
elements. -/
def is_proper_subset_loop : Bool → List α → List α → Bool
  | result, [], r => result || !r.isEmpty
  | _, _ :: _, [] => false
  | result, a :: l, b :: r =>
    if _h : a < b then
      false
    else if _h2 : b < a then
      is_proper_subset_loop true (a :: l) (advance_until a (b :: r))
    else
      is_proper_subset_loop result l r
  termination_by _ l r => l.length + r.length
  decreasing_by
  · have e : advance_until a (b :: r) = advance_until a r := by
      simp [advance_until, List.dropWhile_cons, _h2]
    have h1 : (advance_until a r).length ≤ r.length :=
      (List.dropWhile_sublist _).length_le
    simp only [e, List.length_cons]
    omega
  · simp only [List.length_cons]
    omega

/-- SetRelationships::is_proper_subset entry point: the scan starts with
the result flag false. -/
def is_proper_subset (l r : List α) : Bool :=
  is_proper_subset_loop false l r

end SetOps

namespace Osoi

open PeepAdvance

variable {α : Type} [LinearOrder α]

/-- The Intersection arm of OrdSetOpsIter::next in the older crate
(src/ord_set_ops_iter/src/lib.rs lines 224-244): on Less it advances the
left cursor to the right item AND returns the left cursor's next item; on
Greater symmetrically with the right cursor; on Equal it returns
l_iter.next() without consuming the right side.  Returns the yielded item
and the two child cursors after the call. -/
def intersection_next : List α → List α → Option α × List α × List α
  | [], r => (none, [], r)
  | a :: l, [] => (none, a :: l, [])
  | a :: l, b :: r =>
    if a < b then
      match advance_until b (a :: l) with
      | [] => (none, [], b :: r)
      | c :: l2 => (some c, l2, b :: r)
    else if b < a then
      match advance_until a (b :: r) with
      | [] => (none, a :: l, [])
      | c :: r2 => (some c, a :: l, r2)
    else
      (some a, l, b :: r)

/-- The Intersection arm of OrdSetOpsIter::peek in the older crate
(src/ord_set_ops_iter/src/lib.rs lines 319-338): on Less it advances the
left cursor to the right item and returns the left cursor's peeked item
(without consuming); on Greater symmetrically; on Equal it returns the
common item without mutating. -/
def intersection_peek : List α → List α → Option α × List α × List α
  | [], r => (none, [], r)
  | a :: l, [] => (none, a :: l, [])
  | a :: l, b :: r =>
    if a < b then
      ((advance_until b (a :: l)).head?, advance_until b (a :: l), b :: r)
    else if b < a then
      ((advance_until a (b :: r)).head?, a :: l, advance_until a (b :: r))
    else
      (some a, a :: l, b :: r)

/-- Output sequence obtained by draining the Intersection arm of
OrdSetOpsIter::next (src/ord_set_ops_iter/src/lib.rs lines 224-244) by
repeated calls until it yields None. -/
def intersection_list : List α → List α → List α
  | [], _ => []
  | _ :: _, [] => []
  | a :: l, b :: r =>
    if _h : a < b then
      (advance_until b (a :: l)).head?.elim []
        (fun c => c :: intersection_list (advance_until b (a :: l)).tail (b :: r))
    else if _h2 : b < a then
      (advance_until a (b :: r)).head?.elim []
        (fun c => c :: intersection_list (a :: l) (advance_until a (b :: r)).tail)
    else
      a :: intersection_list l (b :: r)
  termination_by l r => l.length + r.length
  decreasing_by
  · have e : advance_until b (a :: l) = advance_until b l := by
      simp [advance_until, List.dropWhile_cons, _h]
    have h1 : (advance_until b l).length ≤ l.length :=
      (List.dropWhile_sublist _).length_le
    simp only [e, List.length_tail, List.length_cons]
    omega
  · have e : advance_until a (b :: r) = advance_until a r := by
      simp [advance_until, List.dropWhile_cons, _h2]
    have h1 : (advance_until a r).length ≤ r.length :=
      (List.dropWhile_sublist _).length_le
    simp only [e, List.length_tail, List.length_cons]
    omega
  · simp only [List.length_cons]
    omega

/-- OrdSetOpsIter::advance_until on a merge node
(src/ord_set_ops_iter/src/lib.rs lines 379-401): the call is forwarded to
both child cursors. -/
def node_advance_until (t : α) (l r : List α) : List α × List α :=
  (advance_until t l, advance_until t r)

/-- OrdSetOpsIterator::is_subset (src/ord_set_ops_iter/src/lib.rs lines
132-152): the same lock-step scan as the newer crate's
SetRelationships::is_subset. -/
def is_subset : List α → List α → Bool
  | [], _ => true
  | _ :: _, [] => false
  | a :: l, b :: r =>
    if _h : a < b then
      false
    else if _h2 : b < a then
      is_subset (a :: l) (advance_until a (b :: r))
    else
      is_subset l r
  termination_by l r => l.length + r.length
  decreasing_by
  · have e : advance_until a (b :: r) = advance_until a r := by
      simp [advance_until, List.dropWhile_cons, _h2]
    have h1 : (advance_until a r).length ≤ r.length :=
      (List.dropWhile_sublist _).length_le
    simp only [e, List.length_cons]
    omega
  · simp only [List.length_cons]
    omega

/-- OrdSetOpsIterator::is_superset (src/ord_set_ops_iter/src/lib.rs lines
156-176): unlike the newer crate, it returns false when other is exhausted
while self still has elements, and it has no final emptiness check after
the loop. -/
def is_superset : List α → List α → Bool
  | [], _ => true
  | _ :: _, [] => false
  | a :: l, b :: r =>
    if _h : a < b then
      is_superset (advance_until b (a :: l)) (b :: r)
    else if _h2 : b < a then
      false
    else
      is_superset l r
  termination_by l r => l.length + r.length
  decreasing_by
  · have e : advance_until b (a :: l) = advance_until b l := by
      simp [advance_until, List.dropWhile_cons, _h]
    have h1 : (advance_until b l).length ≤ l.length :=
      (List.dropWhile_sublist _).length_le
    simp only [e, List.length_cons]
    omega
  · simp only [List.length_cons]
    omega

/-- The loop of OrdSetOpsIterator::is_proper_subset
(src/ord_set_ops_iter/src/lib.rs lines 80-102) with its result flag as an
accumulator: unlike the newer crate, after self is exhausted it returns
the flag alone, with no check that other still has elements. -/
def is_proper_subset_loop : Bool → List α → List α → Bool
  | result, [], _ => result
  | _, _ :: _, [] => false
  | result, a :: l, b :: r =>
    if _h : a < b then
      false
    else if _h2 : b < a then
      is_proper_subset_loop true (a :: l) (advance_until a (b :: r))
    else
      is_proper_subset_loop result l r
  termination_by _ l r => l.length + r.length
  decreasing_by
  · have e : advance_until a (b :: r) = advance_until a r := by
      simp [advance_until, List.dropWhile_cons, _h2]
    have h1 : (advance_until a r).length ≤ r.length :=
      (List.dropWhile_sublist _).length_le
    simp only [e, List.length_cons]
    omega
  · simp only [List.length_cons]
    omega

/-- OrdSetOpsIterator::is_proper_subset entry point: the scan starts with
the result flag false. -/
def is_proper_subset (l r : List α) : Bool :=
  is_proper_subset_loop false l r

end Osoi

namespace OrdListSetModel

variable {α : Type} [LinearOrder α]

/-- The cursor OrdListSetIter of the ord_list_set crate
(src/ord_list_set/src/lib.rs): a borrowed slice of the set's sorted
members together with a position. -/
structure Iter (α : Type) : Type where
  elements : List α
  index : Nat

/-- PeepAdvanceIter::peep for OrdListSetIter (src/ord_list_set/src/lib.rs
lines 793-795): the element at the current index, if in bounds. -/
def peep (c : Iter α) : Option α :=
  c.elements[c.index]?

/-- The classic binary-search loop of the standard library's
slice::binary_search, searching t in s between positions lo (included) and
hi (excluded), with the Ok and Err outcomes collapsed to the landed
position exactly as the caller OrdListSetIter::advance_until does with
match Ok(index) and Err(index). -/
def bsearch (s : List α) (t : α) (lo hi : Nat) : Nat :=
  if _h : lo < hi then
    match s[(lo + hi) / 2]? with
    | none => lo
    | some v =>
      if v < t then bsearch s t ((lo + hi) / 2 + 1) hi
      else if t < v then bsearch s t lo ((lo + hi) / 2)
      else (lo + hi) / 2
  else lo
  termination_by hi - lo
  decreasing_by
  · omega
  · omega

/-- slice::binary_search over a whole slice, collapsed to the landed
position. -/
def binary_search (s : List α) (t : α) : Nat :=
  bsearch s t 0 s.length

/-- OrdListSetIter::advance_until (src/ord_list_set/src/lib.rs lines
799-809): if the peeped item is below the target, add to the index the
position found by binary-searching the target in the remaining slice;
otherwise do nothing (the guard that makes sure the cursor never moves
backward). -/
def advance_until (c : Iter α) (t : α) : Iter α :=
  match c.elements[c.index]? with
  | none => c
  | some item =>
    if item < t then
      ⟨c.elements, c.index + binary_search (c.elements.drop c.index) t⟩
    else c

/-- The default PeepAdvanceIter::advance_until
(src/ord_set_iter_set_ops/src/lib.rs lines 37-45) specialised to the
OrdListSetIter cursor: repeatedly consume (index + 1) while the peeped
element is below the target. -/
def advance_until_default (c : Iter α) (t : α) : Iter α :=
  match _h : c.elements[c.index]? with
  | none => c
  | some item =>
    if item < t then advance_until_default ⟨c.elements, c.index + 1⟩ t else c
  termination_by c.elements.length - c.index
  decreasing_by
  · have : c.index < c.elements.length := (List.getElem?_eq_some_iff.mp _h).1
    omega

/-- The helper is_sorted_and_no_dups of ord_list_set
(src/ord_list_set/src/lib.rs lines 536-548), loop part: walk the tail
remembering the last element, failing when an element is not strictly
greater than the previous one. -/
def is_sorted_and_no_dups_loop : α → List α → Bool
  | _, [] => true
  | last, e :: es => if e ≤ last then false else is_sorted_and_no_dups_loop e es

/-- The helper is_sorted_and_no_dups of ord_list_set
(src/ord_list_set/src/lib.rs lines 536-548). -/
def is_sorted_and_no_dups : List α → Bool
  | [] => true
  | x :: rest => is_sorted_and_no_dups_loop x rest

/-- The run of std Vec::dedup after its first element: drop elements equal
to the previous kept one, keep the others. -/
def vec_dedup_run : α → List α → List α
  | _, [] => []
  | prev, x :: xs => if x = prev then vec_dedup_run prev xs else x :: vec_dedup_run x xs

/-- std Vec::dedup: removes consecutive repeated elements, keeping the
first of each run. -/
def vec_dedup : List α → List α
  | [] => []
  | x :: xs => x :: vec_dedup_run x xs

/-- From for OrdListSet as written in src/ord_list_set/src/lib.rs lines
550-566 (both the array and the slice impl, and FromIterator at lines
621-628): the members are only sorted (sort_unstable, modelled by the
sorting function insertionSort), with a debug_assert of
is_sorted_and_no_dups and NO call to dedup. -/
def from_members_lib (input : List α) : List α :=
  List.insertionSort (· ≤ ·) input

/-- From for OrdListSet as written in src/ord_list_set/src/convert.rs
(the array impl at lines 21-28, the slice impl at lines 43-50 and the Vec
impl at lines 53-72): the members are sorted with sort_unstable (modelled
by insertionSort) and then deduplicated with Vec::dedup. -/
def from_members_convert (input : List α) : List α :=
  vec_dedup (List.insertionSort (· ≤ ·) input)

end OrdListSetModel

namespace PeepAdvance

variable {α : Type} [LinearOrder α]

theorem advance_until_suffix (t : α) (l : List α) :
    advance_until t l <:+ l :=
  List.dropWhile_suffix _

theorem advance_until_sublist (t : α) (l : List α) :
    List.Sublist (advance_until t l) l :=
  List.dropWhile_sublist _

theorem mem_of_mem_advance_until {t x : α} {l : List α}
    (h : x ∈ advance_until t l) : x ∈ l :=
  (advance_until_sublist t l).mem h

theorem advance_until_sorted {t : α} {l : List α} (hl : l.Sorted (· < ·)) :
    (advance_until t l).Sorted (· < ·) :=
  hl.sublist (advance_until_sublist t l)

end PeepAdvance

namespace SetOps

open PeepAdvance

variable {α : Type} [LinearOrder α]

/-- Draining the intersection iterator yields the empty sequence exactly
when the is_disjoint scan, which advances through the very same
comparisons, answers true: both loops advance identically until the first
Equal comparison, which is the first emission of one and the false answer
of the other. -/
theorem is_disjoint_eq (l r : List α) :
    is_disjoint l r = (intersection_list l r).isEmpty := by
  induction l, r using is_disjoint.induct with
  | case1 r => simp [is_disjoint, intersection_list]
  | case2 a l => simp [is_disjoint, intersection_list]
  | case3 a l b r h ih => simp [is_disjoint, intersection_list, h, ih]
  | case4 a l b r h h2 ih => simp [is_disjoint, intersection_list, h, h2, ih]
  | case5 a l b r h h2 => simp [is_disjoint, intersection_list, h, h2]

theorem intersection_peep_idem (l r : List α) :
    intersection_peep (intersection_peep l r).2.1 (intersection_peep l r).2.2 =
        intersection_peep l r ∧
      (intersection_peep l r).2.1 <:+ l ∧ (intersection_peep l r).2.2 <:+ r := by
  induction l, r using intersection_peep.induct with
  | case1 r => simp [intersection_peep]
  | case2 a l => simp [intersection_peep]
  | case3 a l b r h ih =>
    have e : intersection_peep (a :: l) (b :: r) =
        intersection_peep (advance_until b (a :: l)) (b :: r) := by
      conv_lhs => rw [intersection_peep]
      simp [h]
    rw [e]
    exact ⟨ih.1, ih.2.1.trans (advance_until_suffix _ _), ih.2.2⟩
  | case4 a l b r h h2 ih =>
    have e : intersection_peep (a :: l) (b :: r) =
        intersection_peep (a :: l) (advance_until a (b :: r)) := by
      conv_lhs => rw [intersection_peep]
      simp [h, h2]
    rw [e]
    exact ⟨ih.1, ih.2.1, ih.2.2.trans (advance_until_suffix _ _)⟩
  | case5 a l b r h h2 =>
    have e : intersection_peep (a :: l) (b :: r) = (some a, a :: l, b :: r) := by
      rw [intersection_peep]
      simp [h, h2]
    rw [e]
    exact ⟨e, List.suffix_refl _, List.suffix_refl _⟩

theorem difference_peep_idem (l r : List α) :
    difference_peep (difference_peep l r).2.1 (difference_peep l r).2.2 =
        difference_peep l r ∧
      (difference_peep l r).2.1 <:+ l ∧ (difference_peep l r).2.2 <:+ r := by
  induction l, r using difference_peep.induct with
  | case1 r => simp [difference_peep]
  | case2 a l => simp [difference_peep]
  | case3 a l b r h =>
    have e : difference_peep (a :: l) (b :: r) = (some a, a :: l, b :: r) := by
      rw [difference_peep]
      simp [h]
    rw [e]
    exact ⟨e, List.suffix_refl _, List.suffix_refl _⟩
  | case4 a l b r h h2 ih =>
    have e : difference_peep (a :: l) (b :: r) =
        difference_peep (a :: l) (advance_until a (b :: r)) := by
      conv_lhs => rw [difference_peep]
      simp [h, h2]
    rw [e]
    exact ⟨ih.1, ih.2.1, ih.2.2.trans (advance_until_suffix _ _)⟩
  | case5 a l b r h h2 ih =>
    have e : difference_peep (a :: l) (b :: r) = difference_peep l r := by
      conv_lhs => rw [difference_peep]
      simp [h, h2]
    rw [e]
    exact ⟨ih.1, ih.2.1.trans ⟨[a], rfl⟩, ih.2.2.trans ⟨[b], rfl⟩⟩

theorem union_peep_idem (l r : List α) :
    union_peep (union_peep l r).2.1 (union_peep l r).2.2 = union_peep l r ∧
      (union_peep l r).2.1 <:+ l ∧ (union_peep l r).2.2 <:+ r := by
  rcases l with _ | ⟨a, l⟩
  · simp [union_peep]
  rcases r with _ | ⟨b, r⟩
  · simp [union_peep]
  by_cases h : b < a <;> simp [union_peep, h]

theorem symmetric_difference_peep_idem (l r : List α) :
    symmetric_difference_peep (symmetric_difference_peep l r).2.1
          (symmetric_difference_peep l r).2.2 =
        symmetric_difference_peep l r ∧
      (symmetric_difference_peep l r).2.1 <:+ l ∧
        (symmetric_difference_peep l r).2.2 <:+ r := by
  induction l, r using symmetric_difference_peep.induct with
  | case1 r => simp [symmetric_difference_peep]
  | case2 a l => simp [symmetric_difference_peep]
  | case3 a l b r h =>
    have e : symmetric_difference_peep (a :: l) (b :: r) = (some a, a :: l, b :: r) := by
      rw [symmetric_difference_peep]
      simp [h]
    rw [e]
    exact ⟨e, List.suffix_refl _, List.suffix_refl _⟩
  | case4 a l b r h h2 =>
    have e : symmetric_difference_peep (a :: l) (b :: r) = (some b, a :: l, b :: r) := by
      rw [symmetric_difference_peep]
      simp [h, h2]
    rw [e]
    exact ⟨e, List.suffix_refl _, List.suffix_refl _⟩
  | case5 a l b r h h2 ih =>
    have e : symmetric_difference_peep (a :: l) (b :: r) = symmetric_difference_peep l r := by
      conv_lhs => rw [symmetric_difference_peep]
      simp [h, h2]
    rw [e]
    exact ⟨ih.1, ih.2.1.trans ⟨[a], rfl⟩, ih.2.2.trans ⟨[b], rfl⟩⟩

end SetOps

namespace SetOps

open PeepAdvance

variable {α : Type} [LinearOrder α]

theorem union_list_lb {c : α} : ∀ {l r : List α}, (∀ y ∈ l, c < y) → (∀ y ∈ r, c < y) →
    ∀ y ∈ union_list l r, c < y := by
  intro l r
  induction l, r using union_list.induct with
  | case1 => intro _ _ y hy; simp [union_list] at hy
  | case2 b r ih =>
    intro hl hr y hy
    rw [union_list] at hy
    rcases List.mem_cons.mp hy with rfl | hy
    · exact hr y (List.mem_cons_self _ _)
    · exact ih hl (fun z hz => hr z (List.mem_cons_of_mem _ hz)) y hy
  | case3 a l ih =>
    intro hl hr y hy
    rw [union_list] at hy
    rcases List.mem_cons.mp hy with rfl | hy
    · exact hl y (List.mem_cons_self _ _)
    · exact ih (fun z hz => hl z (List.mem_cons_of_mem _ hz)) hr y hy
  | case4 a l b r h ih =>
    intro hl hr y hy
    rw [union_list] at hy
    simp only [h, if_pos] at hy
    rcases List.mem_cons.mp hy with rfl | hy
    · exact hl y (List.mem_cons_self _ _)
    · exact ih (fun z hz => hl z (List.mem_cons_of_mem _ hz)) hr y hy
  | case5 a l b r h h2 ih =>
    intro hl hr y hy
    rw [union_list] at hy
    simp only [h, h2, dif_neg, dif_pos, not_false_iff] at hy
    rcases List.mem_cons.mp hy with rfl | hy
    · exact hr y (List.mem_cons_self _ _)
    · exact ih hl (fun z hz => hr z (List.mem_cons_of_mem _ hz)) y hy
  | case6 a l b r h h2 ih =>
    intro hl hr y hy
    rw [union_list] at hy
    simp only [h, h2, dif_neg, not_false_iff] at hy
    rcases List.mem_cons.mp hy with rfl | hy
    · exact hl y (List.mem_cons_self _ _)
    · exact ih (fun z hz => hl z (List.mem_cons_of_mem _ hz))
        (fun z hz => hr z (List.mem_cons_of_mem _ hz)) y hy

/-- The union iterator's output is strictly increasing whenever both
inputs are. -/
theorem union_list_sorted : ∀ {l r : List α}, l.Sorted (· < ·) → r.Sorted (· < ·) →
    (union_list l r).Sorted (· < ·) := by
  intro l r
  induction l, r using union_list.induct with
  | case1 => intro _ _; simp [union_list]
  | case2 b r ih =>
    intro hl hr
    rw [union_list]
    have hr' := List.sorted_cons.mp hr
    exact List.sorted_cons.mpr ⟨union_list_lb (by simp) hr'.1, ih hl hr'.2⟩
  | case3 a l ih =>
    intro hl hr
    rw [union_list]
    have hl' := List.sorted_cons.mp hl
    exact List.sorted_cons.mpr ⟨union_list_lb hl'.1 (by simp), ih hl'.2 hr⟩
  | case4 a l b r h ih =>
    intro hl hr
    rw [union_list]
    simp only [h, if_pos]
    have hl' := List.sorted_cons.mp hl
    have hr' := List.sorted_cons.mp hr
    refine List.sorted_cons.mpr ⟨union_list_lb hl'.1 ?_, ih hl'.2 hr⟩
    intro y hy
    rcases List.mem_cons.mp hy with rfl | hy
    · exact h
    · exact lt_trans h (hr'.1 y hy)
  | case5 a l b r h h2 ih =>
    intro hl hr
    rw [union_list]
    simp only [h, h2, dif_neg, dif_pos, not_false_iff]
    have hl' := List.sorted_cons.mp hl
    have hr' := List.sorted_cons.mp hr
    refine List.sorted_cons.mpr ⟨union_list_lb ?_ hr'.1, ih hl hr'.2⟩
    intro y hy
    rcases List.mem_cons.mp hy with rfl | hy
    · exact h2
    · exact lt_trans h2 (hl'.1 y hy)
  | case6 a l b r h h2 ih =>
    intro hl hr
    rw [union_list]
    simp only [h, h2, dif_neg, not_false_iff]
    have hab : a = b := le_antisymm (le_of_not_lt h2) (le_of_not_lt h)
    have hl' := List.sorted_cons.mp hl
    have hr' := List.sorted_cons.mp hr
    refine List.sorted_cons.mpr ⟨union_list_lb hl'.1 ?_, ih hl'.2 hr'.2⟩
    intro y hy
    exact hab ▸ hr'.1 y hy

theorem intersection_list_lb {c : α} : ∀ {l r : List α}, (∀ y ∈ l, c < y) →
    ∀ y ∈ intersection_list l r, c < y := by
  intro l r
  induction l, r using intersection_list.induct with
  | case1 r => intro _ y hy; simp [intersection_list] at hy
  | case2 a l => intro _ y hy; simp [intersection_list] at hy
  | case3 a l b r h ih =>
    intro hl y hy
    rw [intersection_list] at hy
    simp only [h, if_pos] at hy
    exact ih (fun z hz => hl z (mem_of_mem_advance_until hz)) y hy
  | case4 a l b r h h2 ih =>
    intro hl y hy
    rw [intersection_list] at hy
    simp only [h, h2, dif_neg, dif_pos, not_false_iff] at hy
    exact ih hl y hy
  | case5 a l b r h h2 ih =>
    intro hl y hy
    rw [intersection_list] at hy
    simp only [h, h2, dif_neg, not_false_iff] at hy
    rcases List.mem_cons.mp hy with rfl | hy
    · exact hl y (List.mem_cons_self _ _)
    · exact ih (fun z hz => hl z (List.mem_cons_of_mem _ hz)) y hy

/-- The intersection iterator's output is strictly increasing whenever
both inputs are. -/
theorem intersection_list_sorted : ∀ {l r : List α}, l.Sorted (· < ·) → r.Sorted (· < ·) →
    (intersection_list l r).Sorted (· < ·) := by
  intro l r
  induction l, r using intersection_list.induct with
  | case1 r => intro _ _; simp [intersection_list]
  | case2 a l => intro _ _; simp [intersection_list]
  | case3 a l b r h ih =>
    intro hl hr
    rw [intersection_list]
    simp only [h, if_pos]
    exact ih (advance_until_sorted hl) hr
  | case4 a l b r h h2 ih =>
    intro hl hr
    rw [intersection_list]
    simp only [h, h2, dif_neg, dif_pos, not_false_iff]
    exact ih hl (advance_until_sorted hr)
  | case5 a l b r h h2 ih =>
    intro hl hr
    rw [intersection_list]
    simp only [h, h2, dif_neg, not_false_iff]
    have hl' := List.sorted_cons.mp hl
    have hr' := List.sorted_cons.mp hr
    exact List.sorted_cons.mpr ⟨intersection_list_lb hl'.1, ih hl'.2 hr'.2⟩

theorem difference_list_lb {c : α} : ∀ {l r : List α}, (∀ y ∈ l, c < y) →
    ∀ y ∈ difference_list l r, c < y := by
  intro l r
  induction l, r using difference_list.induct with
  | case1 r => intro _ y hy; simp [difference_list] at hy
  | case2 a l ih =>
    intro hl y hy
    rw [difference_list] at hy
    rcases List.mem_cons.mp hy with rfl | hy
    · exact hl y (List.mem_cons_self _ _)
    · exact ih (fun z hz => hl z (List.mem_cons_of_mem _ hz)) y hy
  | case3 a l b r h ih =>
    intro hl y hy
    rw [difference_list] at hy
    simp only [h, if_pos] at hy
    rcases List.mem_cons.mp hy with rfl | hy
    · exact hl y (List.mem_cons_self _ _)
    · exact ih (fun z hz => hl z (List.mem_cons_of_mem _ hz)) y hy
  | case4 a l b r h h2 ih =>
    intro hl y hy
    rw [difference_list] at hy
    simp only [h, h2, dif_neg, dif_pos, not_false_iff] at hy
    exact ih hl y hy
  | case5 a l b r h h2 ih =>
    intro hl y hy
    rw [difference_list] at hy
    simp only [h, h2, dif_neg, not_false_iff] at hy
    exact ih (fun z hz => hl z (List.mem_cons_of_mem _ hz)) y hy

/-- The difference iterator's output is strictly increasing whenever both
inputs are. -/
theorem difference_list_sorted : ∀ {l r : List α}, l.Sorted (· < ·) → r.Sorted (· < ·) →
    (difference_list l r).Sorted (· < ·) := by
  intro l r
  induction l, r using difference_list.induct with
  | case1 r => intro _ _; simp [difference_list]
  | case2 a l ih =>
    intro hl _
    rw [difference_list]
    have hl' := List.sorted_cons.mp hl
    exact List.sorted_cons.mpr ⟨difference_list_lb hl'.1, ih hl'.2 List.sorted_nil⟩
  | case3 a l b r h ih =>
    intro hl hr
    rw [difference_list]
    simp only [h, if_pos]
    have hl' := List.sorted_cons.mp hl
    exact List.sorted_cons.mpr ⟨difference_list_lb hl'.1, ih hl'.2 hr⟩
  | case4 a l b r h h2 ih =>
    intro hl hr
    rw [difference_list]
    simp only [h, h2, dif_neg, dif_pos, not_false_iff]
    exact ih hl (advance_until_sorted hr)
  | case5 a l b r h h2 ih =>
    intro hl hr
    rw [difference_list]
    simp only [h, h2, dif_neg, not_false_iff]
    exact ih (List.sorted_cons.mp hl).2 (List.sorted_cons.mp hr).2

theorem symmetric_difference_list_lb {c : α} : ∀ {l r : List α}, (∀ y ∈ l, c < y) →
    (∀ y ∈ r, c < y) → ∀ y ∈ symmetric_difference_list l r, c < y := by
  intro l r
  induction l, r using symmetric_difference_list.induct with
  | case1 => intro _ _ y hy; simp [symmetric_difference_list] at hy
  | case2 b r ih =>
    intro hl hr y hy
    rw [symmetric_difference_list] at hy
    rcases List.mem_cons.mp hy with rfl | hy
    · exact hr y (List.mem_cons_self _ _)
    · exact ih hl (fun z hz => hr z (List.mem_cons_of_mem _ hz)) y hy
  | case3 a l ih =>
    intro hl hr y hy
    rw [symmetric_difference_list] at hy
    rcases List.mem_cons.mp hy with rfl | hy
    · exact hl y (List.mem_cons_self _ _)
    · exact ih (fun z hz => hl z (List.mem_cons_of_mem _ hz)) hr y hy
  | case4 a l b r h ih =>
    intro hl hr y hy
    rw [symmetric_difference_list] at hy
    simp only [h, if_pos] at hy
    rcases List.mem_cons.mp hy with rfl | hy
    · exact hl y (List.mem_cons_self _ _)
    · exact ih (fun z hz => hl z (List.mem_cons_of_mem _ hz)) hr y hy
  | case5 a l b r h h2 ih =>
    intro hl hr y hy
    rw [symmetric_difference_list] at hy
    simp only [h, h2, dif_neg, dif_pos, not_false_iff] at hy
    rcases List.mem_cons.mp hy with rfl | hy
    · exact hr y (List.mem_cons_self _ _)
    · exact ih hl (fun z hz => hr z (List.mem_cons_of_mem _ hz)) y hy
  | case6 a l b r h h2 ih =>
    intro hl hr y hy
    rw [symmetric_difference_list] at hy
    simp only [h, h2, dif_neg, not_false_iff] at hy
    exact ih (fun z hz => hl z (List.mem_cons_of_mem _ hz))
      (fun z hz => hr z (List.mem_cons_of_mem _ hz)) y hy

/-- The symmetric difference iterator's output is strictly increasing
whenever both inputs are. -/
theorem symmetric_difference_list_sorted : ∀ {l r : List α}, l.Sorted (· < ·) →
    r.Sorted (· < ·) → (symmetric_difference_list l r).Sorted (· < ·) := by
  intro l r
  induction l, r using symmetric_difference_list.induct with
  | case1 => intro _ _; simp [symmetric_difference_list]
  | case2 b r ih =>
    intro hl hr
    rw [symmetric_difference_list]
    have hr' := List.sorted_cons.mp hr
    exact List.sorted_cons.mpr ⟨symmetric_difference_list_lb (by simp) hr'.1, ih hl hr'.2⟩
  | case3 a l ih =>
    intro hl hr
    rw [symmetric_difference_list]
    have hl' := List.sorted_cons.mp hl
    exact List.sorted_cons.mpr ⟨symmetric_difference_list_lb hl'.1 (by simp), ih hl'.2 hr⟩
  | case4 a l b r h ih =>
    intro hl hr
    rw [symmetric_difference_list]
    simp only [h, if_pos]
    have hl' := List.sorted_cons.mp hl
    have hr' := List.sorted_cons.mp hr
    refine List.sorted_cons.mpr ⟨symmetric_difference_list_lb hl'.1 ?_, ih hl'.2 hr⟩
    intro y hy
    rcases List.mem_cons.mp hy with rfl | hy
    · exact h
    · exact lt_trans h (hr'.1 y hy)
  | case5 a l b r h h2 ih =>
    intro hl hr
    rw [symmetric_difference_list]
    simp only [h, h2, dif_neg, dif_pos, not_false_iff]
    have hl' := List.sorted_cons.mp hl
    have hr' := List.sorted_cons.mp hr
    refine List.sorted_cons.mpr ⟨symmetric_difference_list_lb ?_ hr'.1, ih hl hr'.2⟩
    intro y hy
    rcases List.mem_cons.mp hy with rfl | hy
    · exact h2
    · exact lt_trans h2 (hl'.1 y hy)
  | case6 a l b r h h2 ih =>
    intro hl hr
    rw [symmetric_difference_list]
    simp only [h, h2, dif_neg, not_false_iff]
    exact ih (List.sorted_cons.mp hl).2 (List.sorted_cons.mp hr).2

/-- In the crate ord_set_iter_set_ops the subset and superset scans agree
under swapping the two arguments, for all inputs: the two hand-written
loops perform exactly mirrored comparisons. -/
theorem is_subset_eq_is_superset_swap : ∀ l r : List α, is_subset l r = is_superset r l := by
  intro l r
  induction l, r using is_subset.induct with
  | case1 r =>
    rcases r with _ | ⟨b, r⟩
    · simp [is_subset, is_superset, List.isEmpty]
    · simp [is_subset, is_superset]
  | case2 a l =>
    simp [is_subset, is_superset, List.isEmpty]
  | case3 a l b r h =>
    rw [is_subset, is_superset]
    simp [h, lt_asymm h]
  | case4 a l b r h h2 ih =>
    rw [is_subset, is_superset]
    simp [h, h2, ih]
  | case5 a l b r h h2 ih =>
    rw [is_subset, is_superset]
    simp [h, h2, ih]

end SetOps

namespace OrdListSetModel

variable {α : Type} [LinearOrder α]

theorem sorted_get_lt {s : List α} (hs : s.Sorted (· < ·)) {i j : Nat} {u v : α}
    (hij : i < j) (hu : s[i]? = some u) (hv : s[j]? = some v) : u < v := by
  obtain ⟨hi, hu'⟩ := List.getElem?_eq_some_iff.mp hu
  obtain ⟨hj, hv'⟩ := List.getElem?_eq_some_iff.mp hv
  have := List.pairwise_iff_getElem.mp hs i j hi hj hij
  rw [hu', hv'] at this
  exact this

/-- Correctness of the binary-search loop on a strictly sorted list: the
landed position is inside the searched range, every element strictly
before it is below the target, and the element at it (when any) is at or
above the target. -/
theorem bsearch_spec {s : List α} {t : α} (hs : s.Sorted (· < ·)) :
    ∀ lo hi, hi ≤ s.length → lo ≤ hi →
      (∀ i v, hi ≤ i → s[i]? = some v → t ≤ v) →
      lo ≤ bsearch s t lo hi ∧ bsearch s t lo hi ≤ hi ∧
        (∀ i v, lo ≤ i → i < bsearch s t lo hi → s[i]? = some v → v < t) ∧
        (∀ v, s[bsearch s t lo hi]? = some v → t ≤ v) := by
  intro lo hi
  induction lo, hi using bsearch.induct s t with
  | case1 lo hi h heq =>
    intro hhi hlo habove
    have hnone := List.getElem?_eq_none_iff.mp heq
    exfalso
    omega
  | case2 lo hi h v heq h2 ih =>
    intro hhi hlo habove
    have hmid : (lo + hi) / 2 < hi := by omega
    obtain ⟨ih1, ih2, ih3, ih4⟩ := ih (by omega) (by omega) habove
    rw [bsearch]
    simp only [h, heq, h2, dif_pos, if_pos]
    refine ⟨by omega, ih2, ?_, ih4⟩
    intro i v' hi1 hi2 hv'
    by_cases hc : (lo + hi) / 2 + 1 ≤ i
    · exact ih3 i v' hc hi2 hv'
    · by_cases hc2 : i = (lo + hi) / 2
      · subst hc2
        rw [heq] at hv'
        exact (Option.some_inj.mp hv') ▸ h2
      · have : i < (lo + hi) / 2 := by omega
        exact lt_trans (sorted_get_lt hs this hv' heq) h2
  | case3 lo hi h v heq h2 h3 ih =>
    intro hhi hlo habove
    have hmid : (lo + hi) / 2 < hi := by omega
    have habove2 : ∀ i v', (lo + hi) / 2 ≤ i → s[i]? = some v' → t ≤ v' := by
      intro i v' hi1 hv'
      by_cases hc : i = (lo + hi) / 2
      · subst hc
        rw [heq] at hv'
        exact le_of_lt ((Option.some_inj.mp hv') ▸ h3)
      · have : (lo + hi) / 2 < i := by omega
        exact le_of_lt (lt_trans h3 (sorted_get_lt hs this heq hv'))
    obtain ⟨ih1, ih2, ih3, ih4⟩ := ih (by omega) (by omega) habove2
    rw [bsearch]
    simp only [h, heq, h2, h3, dif_pos, if_neg, if_pos, not_false_iff]
    exact ⟨ih1, by omega, ih3, ih4⟩
  | case4 lo hi h v heq h2 h3 =>
    intro hhi hlo habove
    have hmid : (lo + hi) / 2 < hi := by omega
    have hvt : v = t := le_antisymm (not_lt.mp h3) (not_lt.mp h2)
    rw [bsearch]
    simp only [h, heq, h2, h3, dif_pos, if_neg, not_false_iff]
    refine ⟨by omega, by omega, ?_, ?_⟩
    · intro i v' hi1 hi2 hv'
      exact hvt ▸ sorted_get_lt hs hi2 hv' heq
    · intro v' hv'
      subst hvt
      exact le_of_eq (Option.some_inj.mp hv')
  | case5 lo hi h =>
    intro hhi hlo habove
    rw [bsearch]
    simp only [h, dif_neg, not_false_iff]
    refine ⟨le_refl _, hlo, ?_, ?_⟩
    · intro i v' hi1 hi2 _
      exact absurd hi2 (by omega)
    · intro v' hv'
      exact habove lo v' (by omega) hv'

/-- Full specification of the binary-search OrdListSetIter::advance_until
on a cursor over a strictly sorted list: the underlying slice is
untouched, the position never moves backward, the peeped element after the
call is at or above the target, every skipped element is strictly below
the target, and the call is a no-op whenever the currently peeped element
is already at or above the target. -/
theorem advance_until_spec (c : Iter α) (t : α) (hs : c.elements.Sorted (· < ·)) :
    (advance_until c t).elements = c.elements ∧
      c.index ≤ (advance_until c t).index ∧
      (∀ v, peep (advance_until c t) = some v → t ≤ v) ∧
      (∀ j v, c.index ≤ j → j < (advance_until c t).index →
        c.elements[j]? = some v → v < t) ∧
      (∀ v, peep c = some v → t ≤ v → advance_until c t = c) := by
  cases hp : c.elements[c.index]? with
  | none =>
    have hc : advance_until c t = c := by
      unfold advance_until
      rw [hp]
    rw [hc]
    refine ⟨rfl, le_refl _, ?_, ?_, fun _ _ _ => rfl⟩
    · intro v hv
      rw [peep, hp] at hv
      cases hv
    · intro j v hj1 hj2 _
      omega
  | some item =>
    by_cases hlt : item < t
    · have hc : advance_until c t =
          ⟨c.elements, c.index + binary_search (c.elements.drop c.index) t⟩ := by
        unfold advance_until
        rw [hp]
        simp [hlt]
      have hsorted : (c.elements.drop c.index).Sorted (· < ·) :=
        hs.sublist (List.drop_sublist _ _)
      obtain ⟨h1, h2, h3, h4⟩ := bsearch_spec hsorted 0 (c.elements.drop c.index).length
        (le_refl _) (Nat.zero_le _)
        (fun i v hi hv => absurd (List.getElem?_eq_some_iff.mp hv).1 (by omega))
      rw [hc]
      dsimp only
      simp only [binary_search]
      refine ⟨trivial, by omega, ?_, ?_, ?_⟩
      · intro v hv
        rw [peep] at hv
        dsimp only at hv
        have hd : (c.elements.drop c.index)[bsearch (c.elements.drop c.index) t 0
            (c.elements.drop c.index).length]? = some v := by
          rw [List.getElem?_drop]
          exact hv
        exact h4 v hd
      · intro j v hj1 hj2 hv
        have hj : (c.elements.drop c.index)[j - c.index]? = some v := by
          rw [List.getElem?_drop]
          have he : c.index + (j - c.index) = j := by omega
          rw [he]
          exact hv
        exact h3 (j - c.index) v (by omega) (by omega) hj
      · intro v hv ht
        rw [peep, hp] at hv
        have : item = v := Option.some_inj.mp hv
        exact absurd (lt_of_lt_of_le hlt ht) (by rw [this]; exact lt_irrefl v)
    · have hc : advance_until c t = c := by
        unfold advance_until
        rw [hp]
        simp [hlt]
      rw [hc]
      refine ⟨rfl, le_refl _, ?_, ?_, fun _ _ _ => rfl⟩
      · intro v hv
        rw [peep, hp] at hv
        exact (Option.some_inj.mp hv) ▸ (not_lt.mp hlt)
      · intro j v hj1 hj2 _
        omega

/-- Full specification of the naive linear-scan default advance_until on
the same cursor type, for arbitrary (not necessarily sorted) contents:
slice untouched, position never moves backward, peeped element after the
call at or above the target, skipped elements strictly below the target,
and no-op when the peeped element is already at or above the target. -/
theorem advance_until_default_spec (c : Iter α) (t : α) :
    (advance_until_default c t).elements = c.elements ∧
      c.index ≤ (advance_until_default c t).index ∧
      (∀ v, peep (advance_until_default c t) = some v → t ≤ v) ∧
      (∀ j v, c.index ≤ j → j < (advance_until_default c t).index →
        c.elements[j]? = some v → v < t) ∧
      (∀ v, peep c = some v → t ≤ v → advance_until_default c t = c) := by
  induction c, t using advance_until_default.induct with
  | case1 c t hp =>
    have hc : advance_until_default c t = c := by
      unfold advance_until_default
      split
      · rfl
      · rename_i item heq
        rw [hp] at heq
        cases heq
    rw [hc]
    refine ⟨rfl, le_refl _, ?_, ?_, fun _ _ _ => rfl⟩
    · intro v hv
      rw [peep, hp] at hv
      cases hv
    · intro j v hj1 hj2 _
      omega
  | case2 c t item hp hlt ih =>
    have hc : advance_until_default c t =
        advance_until_default ⟨c.elements, c.index + 1⟩ t := by
      conv_lhs => unfold advance_until_default
      split
      · rename_i heq
        rw [hp] at heq
        cases heq
      · rename_i item2 heq
        rw [hp] at heq
        cases heq
        simp [hlt]
    obtain ⟨ih1, ih2, ih3, ih4, _⟩ := ih
    dsimp only at ih2 ih4
    rw [hc]
    refine ⟨ih1, by omega, ih3, ?_, ?_⟩
    · intro j v hj1 hj2 hv
      by_cases hj : j = c.index
      · subst hj
        rw [hp] at hv
        exact (Option.some_inj.mp hv) ▸ hlt
      · exact ih4 j v (by omega) (by omega) hv
    · intro v hv ht
      rw [peep, hp] at hv
      have : item = v := Option.some_inj.mp hv
      exact absurd (lt_of_lt_of_le hlt ht) (by rw [this]; exact lt_irrefl v)
  | case3 c t item hp hlt =>
    have hc : advance_until_default c t = c := by
      unfold advance_until_default
      split
      · rfl
      · rename_i item2 heq
        rw [hp] at heq
        cases heq
        simp [hlt]
    rw [hc]
    refine ⟨rfl, le_refl _, ?_, ?_, fun _ _ _ => rfl⟩
    · intro v hv
      rw [peep, hp] at hv
      exact (Option.some_inj.mp hv) ▸ (not_lt.mp hlt)
    · intro j v hj1 hj2 _
      omega

end OrdListSetModel

/-- C1: the claim says that draining the intersection iterator yields
exactly the common elements in ascending order, that on a Less comparison
only the left cursor is advanced with advance_until and nothing is
emitted, and that an element is emitted only on an Equal comparison.  The
intersection_next macro of ord_set_iter_set_ops behaves that way, but the
cited Intersection arm of OrdSetOpsIter::next (ord_set_ops_iter) emits an
item on the Less comparison right after advancing: draining it on the
disjoint inputs A = [1, 3] and B = [2, 4] yields [3], an element that is
not in both sets, while the macro-based iterator correctly yields the
empty sequence. -/
theorem c1_intersection_emits_on_less :
    Osoi.intersection_list [1, 3] ([2, 4] : List Int) = [3] ∧
      SetOps.intersection_list [1, 3] ([2, 4] : List Int) = [] := by
  constructor
  · simp [Osoi.intersection_list, PeepAdvance.advance_until, List.dropWhile]
  · simp [SetOps.intersection_list, PeepAdvance.advance_until, List.dropWhile]

/-- C2: the claim says that every From construction of an OrdListSet sorts
AND deduplicates its input.  The From impls written in
src/ord_list_set/src/lib.rs lines 550-566 only sort and never call dedup:
on the duplicated input [1, 1] they keep both copies and their own
debug_assert is_sorted_and_no_dups fails, while the From impls of
src/ord_list_set/src/convert.rs do deduplicate as the claim says. -/
theorem c2_from_members_lib_keeps_duplicates :
    OrdListSetModel.from_members_lib [1, 1] = ([1, 1] : List Int) ∧
      OrdListSetModel.is_sorted_and_no_dups
        (OrdListSetModel.from_members_lib [1, 1] : List Int) = false ∧
      OrdListSetModel.from_members_convert [1, 1] = ([1] : List Int) :=
  ⟨by decide, by decide, by decide⟩

/-- C3: the claim says is_proper_subset(A, B) is true when every element
of A is matched in B and either the Greater flag was set or B has leftover
elements, so that A = [1, 2], B = [1, 2, 3] yields true.  The
SetRelationships::is_proper_subset of ord_set_iter_set_ops implements the
final check result OR other-nonempty and yields true there, but the cited
OrdSetOpsIterator::is_proper_subset of ord_set_ops_iter returns the flag
alone after self is exhausted and therefore yields false on that very
input. -/
theorem c3_proper_subset_leftover_check_missing :
    Osoi.is_proper_subset [1, 2] ([1, 2, 3] : List Int) = false ∧
      SetOps.is_proper_subset [1, 2] ([1, 2, 3] : List Int) = true := by
  constructor
  · simp [Osoi.is_proper_subset, Osoi.is_proper_subset_loop, PeepAdvance.advance_until,
      List.dropWhile]
  · simp [SetOps.is_proper_subset, SetOps.is_proper_subset_loop, PeepAdvance.advance_until,
      List.dropWhile]

/-- C4: the claim says is_subset(A, B) equals is_superset(B, A) for all A
and B, and in particular that is_superset([1, 2], [1]) must be true
because is_subset([1], [1, 2]) is true.  The cited
OrdSetOpsIterator::is_superset of ord_set_ops_iter returns false once the
other iterator is exhausted while self still has elements, so on that very
pair it returns false while is_subset with swapped arguments returns
true. -/
theorem c4_superset_subset_swap_violated :
    Osoi.is_superset [1, 2] ([1] : List Int) = false ∧
      Osoi.is_subset [1] ([1, 2] : List Int) = true := by
  constructor
  · simp [Osoi.is_superset, PeepAdvance.advance_until, List.dropWhile]
  · simp [Osoi.is_subset, PeepAdvance.advance_until, List.dropWhile]

/-- C5: the claim says that on every merge node peep returns exactly what
an immediately following next call would return.  For the cited
Intersection arm of OrdSetOpsIter::peek (ord_set_ops_iter), on the node
with children [3] and [2, 4], peek answers some 4 and leaves the children
as [3] and [4], yet next on that very state answers none: peek and next
disagree. -/
theorem c5_intersection_peek_next_mismatch :
    Osoi.intersection_peek [3] ([2, 4] : List Int) = (some 4, [3], [4]) ∧
      Osoi.intersection_next [3] ([4] : List Int) = (none, [], [4]) :=
  ⟨by decide, by decide⟩

/-- C6: after advance_until(t) on a cursor over a sorted duplicate-free
sequence, peep is none or at least t, all skipped elements are strictly
below t, the position never moves backward, and the call is a no-op when
the peeped element is already at or above t - both for the binary-search
OrdListSetIter::advance_until and for the naive linear-scan default. -/
theorem c6_advance_until_spec {α : Type} [LinearOrder α] (c : OrdListSetModel.Iter α)
    (t : α) (hs : c.elements.Sorted (· < ·)) :
    ((OrdListSetModel.advance_until c t).elements = c.elements ∧
      c.index ≤ (OrdListSetModel.advance_until c t).index ∧
      (∀ v, OrdListSetModel.peep (OrdListSetModel.advance_until c t) = some v → t ≤ v) ∧
      (∀ j v, c.index ≤ j → j < (OrdListSetModel.advance_until c t).index →
        c.elements[j]? = some v → v < t) ∧
      (∀ v, OrdListSetModel.peep c = some v → t ≤ v →
        OrdListSetModel.advance_until c t = c)) ∧
    ((OrdListSetModel.advance_until_default c t).elements = c.elements ∧
      c.index ≤ (OrdListSetModel.advance_until_default c t).index ∧
      (∀ v, OrdListSetModel.peep (OrdListSetModel.advance_until_default c t) = some v →
        t ≤ v) ∧
      (∀ j v, c.index ≤ j → j < (OrdListSetModel.advance_until_default c t).index →
        c.elements[j]? = some v → v < t) ∧
      (∀ v, OrdListSetModel.peep c = some v → t ≤ v →
        OrdListSetModel.advance_until_default c t = c)) :=
  ⟨OrdListSetModel.advance_until_spec c t hs, OrdListSetModel.advance_until_default_spec c t⟩

/-- Witness for C6: the skip-ahead scenario of the spec, the cursor at the
start of [1, 2, 3, 7, 8, 9] advanced until 6. -/
theorem c6_advance_until_spec_witness :
    ([1, 2, 3, 7, 8, 9] : List Int).Sorted (· < ·) ∧
      (let c0 : OrdListSetModel.Iter Int := ⟨[1, 2, 3, 7, 8, 9], 0⟩
      ((OrdListSetModel.advance_until c0 6).elements = c0.elements ∧
        c0.index ≤ (OrdListSetModel.advance_until c0 6).index ∧
        (∀ v, OrdListSetModel.peep (OrdListSetModel.advance_until c0 6) = some v → 6 ≤ v) ∧
        (∀ j v, c0.index ≤ j → j < (OrdListSetModel.advance_until c0 6).index →
          c0.elements[j]? = some v → v < 6) ∧
        (∀ v, OrdListSetModel.peep c0 = some v → 6 ≤ v →
          OrdListSetModel.advance_until c0 6 = c0)) ∧
      ((OrdListSetModel.advance_until_default c0 6).elements = c0.elements ∧
        c0.index ≤ (OrdListSetModel.advance_until_default c0 6).index ∧
        (∀ v, OrdListSetModel.peep (OrdListSetModel.advance_until_default c0 6) = some v →
          6 ≤ v) ∧
        (∀ j v, c0.index ≤ j → j < (OrdListSetModel.advance_until_default c0 6).index →
          c0.elements[j]? = some v → v < 6) ∧
        (∀ v, OrdListSetModel.peep c0 = some v → 6 ≤ v →
          OrdListSetModel.advance_until_default c0 6 = c0))) :=
  ⟨by decide, c6_advance_until_spec ⟨[1, 2, 3, 7, 8, 9], 0⟩ 6 (by decide)⟩

/-- C7: the claim says advance_until(t) on a merge node forwards the call
to both children and that afterwards the node's remaining output is its
original remaining output with the elements below t removed.  The
forwarding holds for every node, but for the cited Intersection arm of
OrdSetOpsIter (ord_set_ops_iter): over children [1, 3] and [2, 4],
draining after advance_until(2) yields [4], while the original output
[3] with elements below 2 removed is [3]. -/
theorem c7_advance_then_drain_mismatch :
    Osoi.intersection_list (Osoi.node_advance_until 2 [1, 3] ([2, 4] : List Int)).1
        (Osoi.node_advance_until 2 [1, 3] ([2, 4] : List Int)).2 = [4] ∧
      (Osoi.intersection_list [1, 3] ([2, 4] : List Int)).filter
        (fun x => !decide (x < 2)) = [3] := by
  constructor
  · simp [Osoi.intersection_list, Osoi.node_advance_until, PeepAdvance.advance_until,
      List.dropWhile]
  · simp [Osoi.intersection_list, PeepAdvance.advance_until, List.dropWhile, List.filter]

/-- C8: whenever both inputs of a merge node are strictly increasing and
duplicate-free, the full output of each of the four merge algorithms
(union, intersection, difference, symmetric difference) is itself
strictly increasing and duplicate-free. -/
theorem c8_merge_outputs_sorted {α : Type} [LinearOrder α] {l r : List α}
    (hl : l.Sorted (· < ·)) (hr : r.Sorted (· < ·)) :
    ((SetOps.union_list l r).Sorted (· < ·) ∧ (SetOps.union_list l r).Nodup) ∧
      ((SetOps.intersection_list l r).Sorted (· < ·) ∧
        (SetOps.intersection_list l r).Nodup) ∧
      ((SetOps.difference_list l r).Sorted (· < ·) ∧
        (SetOps.difference_list l r).Nodup) ∧
      ((SetOps.symmetric_difference_list l r).Sorted (· < ·) ∧
        (SetOps.symmetric_difference_list l r).Nodup) := by
  have hu := SetOps.union_list_sorted hl hr
  have hi := SetOps.intersection_list_sorted hl hr
  have hd := SetOps.difference_list_sorted hl hr
  have hy := SetOps.symmetric_difference_list_sorted hl hr
  exact ⟨⟨hu, hu.imp ne_of_lt⟩, ⟨hi, hi.imp ne_of_lt⟩, ⟨hd, hd.imp ne_of_lt⟩,
    ⟨hy, hy.imp ne_of_lt⟩⟩

/-- Witness for C8 at the inputs [1, 3] and [2, 3]. -/
theorem c8_merge_outputs_sorted_witness :
    (([1, 3] : List Int).Sorted (· < ·) ∧ ([2, 3] : List Int).Sorted (· < ·)) ∧
      (((SetOps.union_list [1, 3] ([2, 3] : List Int)).Sorted (· < ·) ∧
          (SetOps.union_list [1, 3] ([2, 3] : List Int)).Nodup) ∧
        ((SetOps.intersection_list [1, 3] ([2, 3] : List Int)).Sorted (· < ·) ∧
          (SetOps.intersection_list [1, 3] ([2, 3] : List Int)).Nodup) ∧
        ((SetOps.difference_list [1, 3] ([2, 3] : List Int)).Sorted (· < ·) ∧
          (SetOps.difference_list [1, 3] ([2, 3] : List Int)).Nodup) ∧
        ((SetOps.symmetric_difference_list [1, 3] ([2, 3] : List Int)).Sorted (· < ·) ∧
          (SetOps.symmetric_difference_list [1, 3] ([2, 3] : List Int)).Nodup)) :=
  ⟨⟨by decide, by decide⟩, c8_merge_outputs_sorted (by decide) (by decide)⟩

/-- C9: peep is idempotent on every merge node, even though the peep of
the intersection, difference and symmetric difference nodes mutates the
child cursors: re-running peep on the mutated state returns the very same
answer and state, and the children only ever move forward (the mutated
children are suffixes of the originals). -/
theorem c9_peep_idempotent {α : Type} [LinearOrder α] (l r : List α) :
    (SetOps.intersection_peep (SetOps.intersection_peep l r).2.1
          (SetOps.intersection_peep l r).2.2 = SetOps.intersection_peep l r ∧
        (SetOps.intersection_peep l r).2.1 <:+ l ∧
        (SetOps.intersection_peep l r).2.2 <:+ r) ∧
      (SetOps.difference_peep (SetOps.difference_peep l r).2.1
          (SetOps.difference_peep l r).2.2 = SetOps.difference_peep l r ∧
        (SetOps.difference_peep l r).2.1 <:+ l ∧
        (SetOps.difference_peep l r).2.2 <:+ r) ∧
      (SetOps.union_peep (SetOps.union_peep l r).2.1
          (SetOps.union_peep l r).2.2 = SetOps.union_peep l r ∧
        (SetOps.union_peep l r).2.1 <:+ l ∧
        (SetOps.union_peep l r).2.2 <:+ r) ∧
      (SetOps.symmetric_difference_peep (SetOps.symmetric_difference_peep l r).2.1
          (SetOps.symmetric_difference_peep l r).2.2 =
            SetOps.symmetric_difference_peep l r ∧
        (SetOps.symmetric_difference_peep l r).2.1 <:+ l ∧
        (SetOps.symmetric_difference_peep l r).2.2 <:+ r) :=
  ⟨SetOps.intersection_peep_idem l r, SetOps.difference_peep_idem l r,
    SetOps.union_peep_idem l r, SetOps.symmetric_difference_peep_idem l r⟩

/-- C10: is_disjoint answers true exactly when draining the intersection
iterator produces no element; the two scans advance through identical
comparisons, is_disjoint answering false precisely at the first Equal
comparison, which is precisely the first emission of the intersection. -/
theorem c10_is_disjoint_eq_intersection_empty {α : Type} [LinearOrder α] (l r : List α) :
    SetOps.is_disjoint l r = (SetOps.intersection_list l r).isEmpty :=
  SetOps.is_disjoint_eq l r
